import Mathlib

/-!
Shallow embedding of the `inquisitor` HTTP load-generation tool
(crates `inquisitor` and `inquisitor-core`), and proofs checking the
natural-language specification against it.

Conventions of the embedding:
* machine integers (`usize`, `u64`) are `Nat`, with `% 2^64` written
  explicitly where a Rust cast truncates;
* `std::time::Duration` is represented by its total number of microseconds
  (the program only ever builds durations through `Duration::from_micros`);
* fallible Rust code returning `Result` becomes `Except`/`Option`;
* a Rust `panic!`/`expect` (fatal abort) becomes `Option.none`;
* the compiled failure-body regex is abstracted as its `is_match`
  function `String → Bool` (the regex engine is an external crate);
* the `hdrhistogram` crate is external to the repository: its `record`
  contract is modelled from the spec (fails exactly when the value is
  out of the provisioned range).
-/

/-! ## Configuration (src/inquisitor-core/src/config.rs) -/

/-- HTTP method, from `config.rs`. -/
inductive Method where
  | get
  | post
deriving DecidableEq, Repr

/-- A `std::time::Duration`, represented by its microsecond count.
`Duration::from_micros n` is `⟨n⟩`. -/
structure Duration where
  micros : Nat
deriving DecidableEq, Repr

/-- Rust `d.as_micros() as u64`: the microsecond count truncated to 64 bits. -/
def Duration.asMicrosU64 (d : Duration) : Nat := d.micros % 2 ^ 64

/-- `usize::MAX` on the (64-bit) target. -/
def USIZE_MAX : Nat := 2 ^ 64 - 1

/-- `u64::MAX`. -/
def U64_MAX : Nat := 2 ^ 64 - 1

/-- Default run duration in seconds, from `config.rs`. -/
def DEFAULT_DURATION_SECS : Nat := 20

/-- The load-runner configuration, from `config.rs`. -/
structure Config where
  url : String
  iterations : Option Nat
  connections : Nat
  print_response : Bool
  failed_body : Option String
  insecure : Bool
  method : Method
  request_body : Option String
  header : List String
  hide_errors : Bool
  duration : Option Duration
  ca_cert : Option String

/-- `Config::iterations_and_duration` from `config.rs`: the effective
maximum number of iterations and duration (in microseconds). -/
def Config.iterations_and_duration (c : Config) : Nat × Nat :=
  match c.iterations, c.duration with
  | none, none => (USIZE_MAX, DEFAULT_DURATION_SECS * 1000000)
  | some i, none => (i, U64_MAX)
  | none, some d => (USIZE_MAX, d.asMicrosU64)
  | some i, some d => (i, d.asMicrosU64)

/-! ## Duration parsing (src/inquisitor-core/src/time.rs)

`parse_duration` runs the regex `(\d\d*(?:\.\d\d*)??)([smh])` over the
input with `Regex::captures`, i.e. an UNANCHORED leftmost search, parses
the first capture as a number and scales by the unit.  The embedding
implements exactly that leftmost search.  Two deliberate modelling
choices:
* the regex class `\d` is modelled as an ASCII digit.  The Rust `regex`
  crate's `\d` is Unicode-aware: it also matches non-ASCII decimal
  digits, and a capture containing one then fails the `f64` parse, so
  the source errors on inputs such as an Arabic-Indic digit directly
  followed by `"1s"` even though an ASCII token is present.  The model
  instead skips such characters.  On inputs that contain no non-ASCII
  decimal digit — in particular on every ASCII string — the model's
  search coincides with the source's, which is why the theorem about
  the success/error characterization is scoped to ASCII inputs;
* the `f64` arithmetic `(base * mul) as u64` is modelled as exact
  rational arithmetic truncated to an integer, `(n * mul) / 10 ^ fracLen`,
  which agrees with `f64` on all values that are exactly representable
  (in particular on every concrete claim input) and never affects
  whether parsing succeeds. -/

/-- Error type from `error.rs`. -/
inductive InquisitorError where
  | durationParseError
deriving DecidableEq, Repr

/-- ASCII decimal digit test (the model of the regex class backslash-d). -/
def isDigitC (c : Char) : Bool := '0' ≤ c && c ≤ '9'

/-- Unit suffix test, the regex class `[smh]`. -/
def isUnitC (c : Char) : Bool := c = 's' || c = 'm' || c = 'h'

/-- Attempt the regex `(\d\d*(?:\.\d\d*)??)([smh])` at the start of `cs`.
On success returns the integer digits, the fractional digits (empty when
the lazy optional group matched nothing) and the unit character. -/
def matchAt (cs : List Char) : Option (List Char × List Char × Char) :=
  let d := cs.takeWhile isDigitC
  if d.isEmpty then none
  else
    match cs.dropWhile isDigitC with
    | [] => none
    | u :: rest2 =>
      if isUnitC u then some (d, [], u)
      else if u = '.' then
        let e := rest2.takeWhile isDigitC
        if e.isEmpty then none
        else
          match rest2.dropWhile isDigitC with
          | [] => none
          | u2 :: _ => if isUnitC u2 then some (d, e, u2) else none
      else none

/-- Leftmost unanchored search for the duration regex: try `matchAt` at
every position, left to right. -/
def findMatch : List Char → Option (List Char × List Char × Char)
  | [] => none
  | c :: rest =>
    match matchAt (c :: rest) with
    | some m => some m
    | none => findMatch rest

/-- Numeric value of a digit character. -/
def digitVal (c : Char) : Nat := c.toNat - '0'.toNat

/-- Value of a digit string. -/
def digitsToNat (cs : List Char) : Nat :=
  cs.foldl (fun a c => 10 * a + digitVal c) 0

/-- Microsecond multiplier for a unit suffix, from the `match` in
`parse_duration`. -/
def unitMul (u : Char) : Nat :=
  if u = 's' then 1000000
  else if u = 'm' then 60 * 1000000
  else 60 * 60 * 1000000

/-- `parse_duration` from `time.rs`: leftmost regex match, then numeric
scaling by the unit. -/
def parse_duration (s : String) : Except InquisitorError Duration :=
  match findMatch s.data with
  | none => Except.error InquisitorError.durationParseError
  | some (d, e, u) =>
    Except.ok ⟨digitsToNat (d ++ e) * unitMul u / 10 ^ e.length⟩

/-! Spec-side predicates for claim C4, written from the spec's words
("a positive decimal number immediately followed by one of the unit
suffixes s, m, h"), to be compared with `parse_duration`. -/

/-- Modelled from the spec: the WHOLE string is a positive decimal number
immediately followed by a unit suffix. -/
def specExactFormB (s : List Char) : Bool :=
  let d := s.takeWhile isDigitC
  if d.isEmpty then false
  else
    match s.dropWhile isDigitC with
    | [u] => isUnitC u && d.any (fun c => c ≠ '0')
    | '.' :: rest2 =>
      let e := rest2.takeWhile isDigitC
      match rest2.dropWhile isDigitC with
      | [u] => (!e.isEmpty) && isUnitC u && (d ++ e).any (fun c => c ≠ '0')
      | _ => false
    | _ => false

/-- The string CONTAINS, at some position, a decimal number (integer part
`d`, optional fractional part `e`) immediately followed by a unit suffix.
This is the shape the unanchored regex actually looks for. -/
def containsDurationToken (s : List Char) : Prop :=
  ∃ pre d mid u post, s = pre ++ d ++ mid ++ u :: post
    ∧ d ≠ [] ∧ d.all isDigitC = true
    ∧ (mid = [] ∨ ∃ e, mid = '.' :: e ∧ e ≠ [] ∧ e.all isDigitC = true)
    ∧ isUnitC u = true

/-! ## Response classification and counters (src/inquisitor-core/src/lib.rs)

The worker's `match response` has five arms guarded on
`res.status().is_success()` and `failed_regex.is_none()/is_some()`
(plus a final, genuinely unreachable arm).  `is_success` for an HTTP
status code is `200 <= code < 300`.  The embedding splits the match
into the pass/fail decision (`classify`) and the counter bump
(`applyOutcome`); `handleResponse` is their composition and covers
exactly the source's arms. -/

/-- Result of one HTTP exchange: either a full response (status code and
body) or a transport-level error with a message. -/
inductive ReqResult where
  | response (status : Nat) (body : String)
  | transportErr (msg : String)

/-- `StatusCode::is_success`: `200 <= code < 300`. -/
def is2xx (status : Nat) : Bool := 200 ≤ status && status < 300

/-- Pass/fail outcome of one request. -/
inductive Outcome where
  | pass
  | fail
deriving DecidableEq, Repr

/-- The pass/fail decision of the worker's `match response`, with the
compiled failure regex abstracted as its `is_match` function.
Arm order and guards follow the source:
success and no regex → pass; success and regex → fail iff the body
matches; not success → fail; transport error → fail. -/
def classify (failedRegex : Option (String → Bool)) (res : ReqResult) : Outcome :=
  match res, failedRegex with
  | .response st _, none => if is2xx st then .pass else .fail
  | .response st body, some p =>
    if is2xx st then (if p body then .fail else .pass) else .fail
  | .transportErr _, _ => .fail

/-- The shared pass/error counters. -/
structure Counters where
  passes : Nat
  errors : Nat
deriving DecidableEq, Repr

/-- The counter bump the worker performs for one outcome:
`passes.fetch_add(1)` on a pass, `errors.fetch_add(1)` on a fail. -/
def applyOutcome (o : Outcome) (c : Counters) : Counters :=
  match o with
  | .pass => { c with passes := c.passes + 1 }
  | .fail => { c with errors := c.errors + 1 }

/-- The full effect on the counters of handling one completed request. -/
def handleResponse (failedRegex : Option (String → Bool)) (res : ReqResult)
    (c : Counters) : Counters :=
  applyOutcome (classify failedRegex res) c

/-! ## Cancellation (the ctrl-c handler in src/inquisitor-core/src/lib.rs)

The handler does `should_exit.fetch_or(true, SeqCst)` and, when the flag
was already set, `std::process::exit(130)`.  A run whose `main` returns
normally exits with status 0 (Rust semantics). -/

/-- One invocation of the ctrl-c handler: given the current flag value,
returns the new flag value and `some code` when the handler terminates
the process. -/
def ctrlcHandler (flag : Bool) : Bool × Option Nat :=
  (true, if flag then some 130 else none)

/-- Deliver `n` external interrupts in sequence, starting from flag state
`flag`; stops at the first handler invocation that terminates the
process. -/
def runInterrupts : Bool → Nat → Bool × Option Nat
  | flag, 0 => (flag, none)
  | flag, n + 1 =>
    match ctrlcHandler flag with
    | (f2, some c) => (f2, some c)
    | (f2, none) => runInterrupts f2 n

/-- Observable fate of the process. -/
inductive RunOutcome where
  | completed (code : Nat)
  | terminated (code : Nat)
deriving DecidableEq, Repr

/-- Fate of a run during which `n` external interrupts arrive: if some
handler invocation terminated the process that exit code is used,
otherwise `main` returns and the process exits with status 0. -/
def runOutcome (n : Nat) : RunOutcome :=
  match (runInterrupts false n).2 with
  | some c => .terminated c
  | none => .completed 0

/-! ## Latency histogram (src/inquisitor-core/src/lib.rs)

The run builds `Histogram::<u64>::new_with_max(1_000_000_000_000, 3)`
and records each latency with `.record(elapsed).expect(..)`.
`hdrhistogram` is an external crate; per the spec's contract for the
histogram capability, `record` fails exactly when the value exceeds the
provisioned maximum trackable value. -/

/-- Model of an `hdrhistogram::Histogram` as its maximum trackable value
plus the multiset (here: list) of recorded samples. -/
structure Histogram where
  maxValue : Nat
  samples : List Nat
deriving DecidableEq, Repr

/-- `Histogram::new_with_max(max, sigfigs)`.  The significant-figure
argument only controls bucket precision, which this model does not
coarsen; the parameters used by the run (`10^12`, `3`) are valid, so the
constructor's error path is not modelled. -/
def Histogram.newWithMax (maxValue : Nat) (_sigfigs : Nat) : Histogram :=
  ⟨maxValue, []⟩

/-- Modelled from the spec: the `record` contract of the external
histogram capability — appends the sample, failing exactly when the
value exceeds the provisioned maximum trackable value. -/
def Histogram.record (h : Histogram) (v : Nat) : Except String Histogram :=
  if h.maxValue < v then Except.error "value out of range"
  else Except.ok { h with samples := v :: h.samples }

/-- The histogram the run constructs. -/
def runHistogram : Histogram := Histogram.newWithMax 1000000000000 3

/-- The run's `times.record(elapsed).expect("time out of bounds")`:
`none` models the fatal abort of the `expect`. -/
def recordLatency (h : Histogram) (v : Nat) : Option Histogram :=
  match h.record v with
  | .error _ => none
  | .ok h2 => some h2

/-! ## Header arguments (src/inquisitor-core/src/lib.rs)

For each `-H` argument the run does
`if let Some((k, v)) = header.split_once(':') { headers.insert(k, v) }`
into a `HashMap`.  The map is modelled as an association list whose
`insert` removes any previous binding of the key. -/

/-- `str::split_once`: split at the FIRST occurrence of `c`; `none` when
`c` does not occur. -/
def splitOnce : List Char → Char → Option (List Char × List Char)
  | [], _ => none
  | x :: rest, c =>
    if x = c then some ([], rest)
    else
      match splitOnce rest c with
      | some (a, b) => some (x :: a, b)
      | none => none

/-- Drop every binding of key `k` from the association list. -/
def removeKey (k : List Char) : List (List Char × List Char) →
    List (List Char × List Char)
  | [] => []
  | p :: rest => if p.1 = k then removeKey k rest else p :: removeKey k rest

/-- `HashMap::insert`: bind `k` to `v`, discarding any previous binding. -/
def insertHeader (m : List (List Char × List Char)) (k v : List Char) :
    List (List Char × List Char) :=
  (k, v) :: removeKey k m

/-- `HashMap::get`-style lookup in the association-list model. -/
def lookupHeader (m : List (List Char × List Char)) (k : List Char) :
    Option (List Char) :=
  match m with
  | [] => none
  | (k2, v) :: rest => if k2 = k then some v else lookupHeader rest k

/-- The header-building loop of `run`: fold the `-H` arguments left to
right, inserting those that contain a colon. -/
def buildHeaders (hs : List (List Char)) : List (List Char × List Char) :=
  hs.foldl
    (fun m h =>
      match splitOnce h ':' with
      | some (k, v) => insertHeader m k v
      | none => m)
    []

/-- Spec-side description of the final binding of key `k`: the value from
the LAST argument that splits to key `k`. -/
def lastValueFor (hs : List (List Char)) (k : List Char) : Option (List Char) :=
  hs.foldl
    (fun acc h =>
      match splitOnce h ':' with
      | some (k2, v) => if k2 = k then some v else acc
      | none => acc)
    none

/-! ## The worker loop (src/inquisitor-core/src/lib.rs)

Each spawned task runs

    let mut total = passes.load(..) + errors.load(..);
    let mut total_elapsed = <elapsed micros>;
    while total < iterations && total_elapsed < duration {
        if should_exit.load(..) { break; }
        <build and send request>;
        <record latency>;
        <classify and bump one counter>;
        total = passes.load(..) + errors.load(..);
        total_elapsed = <elapsed micros>;
    }

The loop is embedded as a function over a trace of environment
observations, one per potential iteration: the cancellation flag read at
the top of the body, the request's outcome and latency, and the shared
counter total / elapsed time read at the END of the body (which become
the values the NEXT `while` check uses).  The totals are unconstrained,
modelling interference by the other workers.  The trace has finite
length: it is the observation horizon, not a stop condition the code has. -/

/-- Environment observations for one potential loop iteration. -/
structure IterEnv where
  cancel : Bool
  latency : Nat
  result : ReqResult
  nextTotal : Nat
  nextElapsed : Nat

/-- What one executed iteration leaves behind: one issued request, its
recorded latency sample and its pass/fail outcome. -/
structure IterRec where
  latency : Nat
  outcome : Outcome
deriving DecidableEq, Repr

/-- The worker loop: `total`/`elapsed` are the shared values read before
the current `while` check; `envs` supplies the per-iteration
observations. -/
def workerLoop (iterations duration : Nat) (failedRegex : Option (String → Bool)) :
    Nat → Nat → List IterEnv → List IterRec
  | _, _, [] => []
  | total, elapsed, e :: rest =>
    if total < iterations && elapsed < duration then
      if e.cancel then []
      else
        { latency := e.latency, outcome := classify failedRegex e.result }
          :: workerLoop iterations duration failedRegex e.nextTotal e.nextElapsed rest
    else []

/-- The counter total and elapsed time the worker uses for its `k`-th
check: the initial reads for `k = 0`, the reads at the end of iteration
`k - 1` afterwards. -/
def checkStateAt (total0 elapsed0 : Nat) (envs : List IterEnv) : Nat → Nat × Nat
  | 0 => (total0, elapsed0)
  | k + 1 =>
    match envs.get? k with
    | some e => (e.nextTotal, e.nextElapsed)
    | none => (total0, elapsed0)

/-- The full check guarding iteration `k`: counter total below the
iteration bound, elapsed time below the duration bound, and the
cancellation flag unset. -/
def checkOkAt (iterations duration total0 elapsed0 : Nat) (envs : List IterEnv)
    (k : Nat) : Bool :=
  let st := checkStateAt total0 elapsed0 envs k
  match envs.get? k with
  | some e => st.1 < iterations && st.2 < duration && !e.cancel
  | none => false

/-! ## The multi-worker run as a transition system
(src/inquisitor-core/src/lib.rs)

`run` spawns `connections` copies of the worker loop over the shared
`passes`/`errors` counters, the shared histogram and the shared
cancellation flag.  The concurrency is modelled as a sequentially
consistent interleaving of atomic events; one worker iteration is the
sequence  issue (the passing check and the send)  →  record (the
latency sample)  →  finishPass / finishErr (the counter bump).
A worker whose check fails moves to `done` and never issues again.
The environment may advance time (`tick`) and set the cancellation
flag (`interrupt`). -/

/-- Phase of one worker within its loop. -/
inductive WStatus where
  | idle
  | inflight
  | recorded
  | done
deriving DecidableEq, Repr

/-- Shared state of a run: the workers' phases, the two atomic counters,
the number of recorded histogram samples, the elapsed time and the
cancellation flag. -/
structure Sys where
  workers : List WStatus
  passes : Nat
  errors : Nat
  samples : Nat
  elapsed : Nat
  cancel : Bool
deriving DecidableEq, Repr

/-- The shared counter total `passes + errors`. -/
def Sys.total (s : Sys) : Nat := s.passes + s.errors

/-- Initial state of a run with `conns` workers. -/
def Sys.init (conns : Nat) : Sys :=
  ⟨List.replicate conns WStatus.idle, 0, 0, 0, 0, false⟩

/-- Atomic events of the interleaved run. -/
inductive Step (iterations duration : Nat) : Sys → Sys → Prop
  | issue (s : Sys) (i : Nat)
      (hw : s.workers.get? i = some WStatus.idle)
      (hI : s.total < iterations)
      (hD : s.elapsed < duration)
      (hc : s.cancel = false) :
      Step iterations duration s { s with workers := s.workers.set i WStatus.inflight }
  | record (s : Sys) (i : Nat)
      (hw : s.workers.get? i = some WStatus.inflight) :
      Step iterations duration s
        { s with workers := s.workers.set i WStatus.recorded,
                 samples := s.samples + 1 }
  | finishPass (s : Sys) (i : Nat)
      (hw : s.workers.get? i = some WStatus.recorded) :
      Step iterations duration s
        { s with workers := s.workers.set i WStatus.idle,
                 passes := s.passes + 1 }
  | finishErr (s : Sys) (i : Nat)
      (hw : s.workers.get? i = some WStatus.recorded) :
      Step iterations duration s
        { s with workers := s.workers.set i WStatus.idle,
                 errors := s.errors + 1 }
  | halt (s : Sys) (i : Nat)
      (hw : s.workers.get? i = some WStatus.idle)
      (hstop : ¬(s.total < iterations ∧ s.elapsed < duration ∧ s.cancel = false)) :
      Step iterations duration s { s with workers := s.workers.set i WStatus.done }
  | tick (s : Sys) (d : Nat) :
      Step iterations duration s { s with elapsed := s.elapsed + d }
  | interrupt (s : Sys) :
      Step iterations duration s { s with cancel := true }

/-- States reachable from the initial state of a run with `conns` workers. -/
def Reachable (iterations duration conns : Nat) (s : Sys) : Prop :=
  Relation.ReflTransGen (Step iterations duration) (Sys.init conns) s

/-- Number of workers currently in phase `st`. -/
def countW (st : WStatus) (l : List WStatus) : Nat := l.count st

/-- Total number of requests issued so far: every issued request has
either already bumped a counter or is still in its iteration. -/
def Sys.issued (s : Sys) : Nat :=
  s.passes + s.errors + countW WStatus.inflight s.workers
    + countW WStatus.recorded s.workers

/-! ## Theorems -/

/-- C2: the effective stop bound is resolved as: neither iterations nor
duration supplied → (unbounded iterations, 20 000 000 µs); only
iterations I → (I, unbounded duration); only duration D → (unbounded
iterations, D in µs); both → (I, D in µs).  `usize::MAX` / `u64::MAX`
play the role of the unbounded values. -/
theorem c2_stop_bound_resolution (c : Config) :
    (c.iterations = none → c.duration = none →
      c.iterations_and_duration = (USIZE_MAX, 20000000)) ∧
    (∀ i, c.iterations = some i → c.duration = none →
      c.iterations_and_duration = (i, U64_MAX)) ∧
    (∀ d, c.iterations = none → c.duration = some d → d.micros < 2 ^ 64 →
      c.iterations_and_duration = (USIZE_MAX, d.micros)) ∧
    (∀ i d, c.iterations = some i → c.duration = some d → d.micros < 2 ^ 64 →
      c.iterations_and_duration = (i, d.micros)) := by
  refine ⟨?_, ?_, ?_, ?_⟩
  · intro h1 h2
    simp [Config.iterations_and_duration, h1, h2, DEFAULT_DURATION_SECS]
  · intro i h1 h2
    simp [Config.iterations_and_duration, h1, h2]
  · intro d h1 h2 hlt
    have hlt2 : d.micros < 18446744073709551616 := by
      norm_num at hlt
      exact hlt
    simp [Config.iterations_and_duration, h1, h2, Duration.asMicrosU64,
      Nat.mod_eq_of_lt hlt2]
  · intro i d h1 h2 hlt
    have hlt2 : d.micros < 18446744073709551616 := by
      norm_num at hlt
      exact hlt
    simp [Config.iterations_and_duration, h1, h2, Duration.asMicrosU64,
      Nat.mod_eq_of_lt hlt2]

/-- Witness for C2 at a concrete configuration with only iterations set. -/
theorem c2_stop_bound_resolution_witness :
    Config.iterations_and_duration
      { url := "http://localhost", iterations := some 5, connections := 12,
        print_response := false, failed_body := none, insecure := false,
        method := Method.get, request_body := none, header := [],
        hide_errors := false, duration := none, ca_cert := none }
      = (5, U64_MAX) :=
  (c2_stop_bound_resolution _).2.1 5 rfl rfl

/-- C5, counterexample: the claim says `parse_duration "20h"` is
72 000 000 000 000 µs, but 20 hours are 72 000 000 000 µs (the spec's
figure is 1000 times too large), and that is what the code computes. -/
theorem c5_duration_counterexample :
    parse_duration "20h" ≠ Except.ok ⟨72000000000000⟩ := by
  intro h
  have h2 : parse_duration "20h" = Except.ok ⟨72000000000⟩ := rfl
  rw [h2] at h
  simp at h

/-- C5, amended: `parse_duration "1.5m"` is exactly 90 000 000 µs and
`parse_duration "20h"` is exactly 72 000 000 000 µs. -/
theorem c5_duration_round_trip :
    parse_duration "1.5m" = Except.ok ⟨90000000⟩ ∧
    parse_duration "20h" = Except.ok ⟨72000000000⟩ := by
  constructor <;> rfl

/-- C1: for every completed request exactly one counter is incremented by
exactly one: a transport error or a non-2xx status bumps the error
counter; a 2xx with no failure pattern bumps the pass counter; a 2xx
whose body matches the pattern bumps the error counter; a 2xx whose body
does not match bumps the pass counter. -/
theorem c1_classification (fr : Option (String → Bool)) (msg body : String)
    (st : Nat) (c : Counters) :
    (∀ res, (handleResponse fr res c).passes + (handleResponse fr res c).errors
        = c.passes + c.errors + 1
      ∧ ((handleResponse fr res c).passes = c.passes
        ∨ (handleResponse fr res c).errors = c.errors)) ∧
    (handleResponse fr (.transportErr msg) c = { c with errors := c.errors + 1 }) ∧
    (is2xx st = false →
      handleResponse fr (.response st body) c = { c with errors := c.errors + 1 }) ∧
    (is2xx st = true → fr = none →
      handleResponse fr (.response st body) c = { c with passes := c.passes + 1 }) ∧
    (∀ p, is2xx st = true → fr = some p → p body = true →
      handleResponse fr (.response st body) c = { c with errors := c.errors + 1 }) ∧
    (∀ p, is2xx st = true → fr = some p → p body = false →
      handleResponse fr (.response st body) c = { c with passes := c.passes + 1 }) := by
  refine ⟨?_, ?_, ?_, ?_, ?_, ?_⟩
  · intro res
    rcases res with ⟨st2, body2⟩ | m
    · rcases fr with _ | p
      · by_cases h : is2xx st2 <;>
          simp [handleResponse, classify, applyOutcome, h] <;> omega
      · by_cases h : is2xx st2
        · by_cases hm : p body2 <;>
            simp [handleResponse, classify, applyOutcome, h, hm] <;> omega
        · simp [handleResponse, classify, applyOutcome, h]
          omega
    · rcases fr with _ | p <;> simp [handleResponse, classify, applyOutcome] <;> omega
  · rcases fr with _ | p <;> simp [handleResponse, classify, applyOutcome]
  · intro h
    rcases fr with _ | p <;> simp [handleResponse, classify, applyOutcome, h]
  · intro h hfr
    subst hfr
    simp [handleResponse, classify, applyOutcome, h]
  · intro p h hfr hm
    subst hfr
    simp [handleResponse, classify, applyOutcome, h, hm]
  · intro p h hfr hm
    subst hfr
    simp [handleResponse, classify, applyOutcome, h, hm]

/-- Witness for C1: a 2xx response whose body matches the configured
pattern bumps the error counter. -/
theorem c1_classification_witness :
    handleResponse (some fun b => b = "internal error occurred")
      (.response 200 "internal error occurred") ⟨3, 4⟩ = ⟨3, 5⟩ :=
  (c1_classification (some fun b => b = "internal error occurred")
    "" "internal error occurred" 200 ⟨3, 4⟩).2.2.2.2.1
    (fun b => b = "internal error occurred") rfl rfl (by simp)

/-- C6: the cancellation flag is only ever set (false→true, never reset);
the first interrupt sets it without terminating the process, a second
interrupt while it is set terminates the process with exit status 130,
and a run that completes normally exits with status 0. -/
theorem c6_cancellation (n : Nat) (f : Bool) :
    ((ctrlcHandler f).1 = true) ∧
    (ctrlcHandler false = (true, none)) ∧
    (ctrlcHandler true = (true, some 130)) ∧
    (f = true → (runInterrupts f n).1 = true) ∧
    (runOutcome 0 = .completed 0) ∧
    (runOutcome 1 = .completed 0) ∧
    (2 ≤ n → runOutcome n = .terminated 130) := by
  refine ⟨rfl, rfl, rfl, ?_, rfl, rfl, ?_⟩
  · intro hf
    subst hf
    cases n <;> simp [runInterrupts, ctrlcHandler]
  · intro hn
    obtain ⟨k, rfl⟩ : ∃ k, n = k + 2 := ⟨n - 2, by omega⟩
    simp [runOutcome, runInterrupts, ctrlcHandler]

/-- Witness for C6: three interrupts terminate the process with
status 130 (the second one already does). -/
theorem c6_cancellation_witness : runOutcome 3 = .terminated 130 :=
  (c6_cancellation 3 false).2.2.2.2.2.2 (by omega)

/-- C7: the latency histogram is provisioned with a maximum trackable
value of 10^12 µs, and recording a sample aborts the run fatally exactly
when the sample exceeds that maximum; otherwise the sample is appended
and the run continues. -/
theorem c7_histogram_bound (h : Histogram) (v : Nat) :
    runHistogram.maxValue = 1000000000000 ∧
    (h.maxValue = 1000000000000 →
      ((recordLatency h v = none ↔ 1000000000000 < v) ∧
       (v ≤ 1000000000000 →
         recordLatency h v = some ⟨h.maxValue, v :: h.samples⟩))) := by
  refine ⟨rfl, ?_⟩
  intro hmax
  constructor
  · constructor
    · intro habort
      by_contra hle
      simp [recordLatency, Histogram.record, hmax, hle] at habort
    · intro hgt
      simp [recordLatency, Histogram.record, hmax, hgt]
  · intro hle
    have hnot : ¬(1000000000000 < v) := by omega
    simp [recordLatency, Histogram.record, hmax, hnot]

/-- Witness for C7: recording a 7 µs sample into the run's histogram
succeeds and appends the sample. -/
theorem c7_histogram_bound_witness :
    recordLatency runHistogram 7
      = some ⟨runHistogram.maxValue, 7 :: runHistogram.samples⟩ :=
  ((c7_histogram_bound runHistogram 7).2 rfl).2 (by omega)

/-! Helper lemmas about `splitOnce`, `insertHeader`, `lookupHeader`. -/

lemma splitOnce_of_not_mem (s : List Char) (c : Char) (h : c ∉ s) :
    splitOnce s c = none := by
  induction s with
  | nil => rfl
  | cons x rest ih =>
    have hx : ¬x = c := fun hxc => h (hxc ▸ List.mem_cons_self x rest)
    have hr : c ∉ rest := fun hm => h (List.mem_cons_of_mem x hm)
    simp [splitOnce, hx, ih hr]

lemma splitOnce_first (a b : List Char) (c : Char) (h : c ∉ a) :
    splitOnce (a ++ c :: b) c = some (a, b) := by
  induction a with
  | nil => simp [splitOnce]
  | cons x rest ih =>
    have hx : ¬x = c := fun hxc => h (hxc ▸ List.mem_cons_self x rest)
    have hr : c ∉ rest := fun hm => h (List.mem_cons_of_mem x hm)
    simp [splitOnce, hx, ih hr]

lemma lookupHeader_removeKey_ne (m : List (List Char × List Char))
    (k k2 : List Char) (h : k2 ≠ k) :
    lookupHeader (removeKey k m) k2 = lookupHeader m k2 := by
  induction m with
  | nil => rfl
  | cons p rest ih =>
    by_cases hp : p.1 = k
    · have hp2 : ¬p.1 = k2 := fun hq => h (hq ▸ hp ▸ rfl)
      simp [removeKey, hp, lookupHeader, hp2, ih, Ne.symm h]
    · by_cases hq : p.1 = k2
      · simp [removeKey, hp, lookupHeader, hq, h]
      · simp [removeKey, hp, lookupHeader, hq, ih, h]

lemma lookupHeader_insert_self (m : List (List Char × List Char))
    (k v : List Char) : lookupHeader (insertHeader m k v) k = some v := by
  simp [insertHeader, lookupHeader]

lemma lookupHeader_insert_ne (m : List (List Char × List Char))
    (k v k2 : List Char) (h : k2 ≠ k) :
    lookupHeader (insertHeader m k v) k2 = lookupHeader m k2 := by
  have hk : ¬k = k2 := fun hq => h hq.symm
  simp [insertHeader, lookupHeader, hk, lookupHeader_removeKey_ne m k k2 h]

/-- The header fold and the last-value fold stay in lockstep: if the
lookup of `k` in the accumulated map equals the accumulated value, the
same holds after folding any further arguments. -/
lemma lookupHeader_foldl (k : List Char) (hs : List (List Char)) :
    ∀ (m : List (List Char × List Char)) (acc : Option (List Char)),
      lookupHeader m k = acc →
      lookupHeader
        (List.foldl
          (fun m h =>
            match splitOnce h ':' with
            | some (k, v) => insertHeader m k v
            | none => m)
          m hs) k
      = List.foldl
          (fun acc h =>
            match splitOnce h ':' with
            | some (k2, v) => if k2 = k then some v else acc
            | none => acc)
          acc hs := by
  induction hs with
  | nil => intro m acc h; simpa using h
  | cons hd rest ih =>
    intro m acc h
    simp only [List.foldl_cons]
    apply ih
    rcases hsplit : splitOnce hd ':' with _ | ⟨k2, v⟩
    · simpa using h
    · by_cases hk : k2 = k
      · subst hk
        simp [lookupHeader_insert_self]
      · simp [hk, lookupHeader_insert_ne m k2 v k (fun hq => hk hq.symm), h]

/-- C10: every header argument is split at its first colon (the value
keeps later colons), an argument with no colon is silently ignored, and
when two arguments share a key the later one wins in the final mapping. -/
theorem c10_headers (a b s k : List Char) (hs hs1 hs2 : List (List Char)) :
    (':' ∉ a → splitOnce (a ++ ':' :: b) ':' = some (a, b)) ∧
    (':' ∉ s → buildHeaders (hs1 ++ s :: hs2) = buildHeaders (hs1 ++ hs2)) ∧
    (lookupHeader (buildHeaders hs) k = lastValueFor hs k) := by
  refine ⟨fun h => splitOnce_first a b ':' h, ?_, ?_⟩
  · intro hnc
    simp [buildHeaders, List.foldl_append, List.foldl_cons,
      splitOnce_of_not_mem s ':' hnc]
  · exact lookupHeader_foldl k hs [] none rfl

/-- Witness for C10: `"Content-Type:application/json"`-style splitting at
the first colon, with the value keeping a later colon. -/
theorem c10_headers_witness :
    splitOnce ("Auth".data ++ ':' :: "a:b".data) ':'
      = some ("Auth".data, "a:b".data) :=
  (c10_headers "Auth".data "a:b".data [] [] [] [] []).1 (by decide)

/-! Helper lemmas for the worker-loop claim. -/

lemma checkOkAt_zero (I D t0 e0 : Nat) (e : IterEnv) (rest : List IterEnv) :
    checkOkAt I D t0 e0 (e :: rest) 0
      = (decide (t0 < I) && decide (e0 < D) && !e.cancel) := by
  simp [checkOkAt, checkStateAt]

lemma checkOkAt_succ (I D t0 e0 : Nat) (e : IterEnv) (rest : List IterEnv)
    (k : Nat) :
    checkOkAt I D t0 e0 (e :: rest) (k + 1)
      = checkOkAt I D e.nextTotal e.nextElapsed rest k := by
  cases k with
  | zero => simp [checkOkAt, checkStateAt]
  | succ j =>
    rcases hj : rest.get? j with _ | e2
    · have hj2 : rest.get? (j + 1) = none := by
        rw [List.get?_eq_none] at hj ⊢
        omega
      simp only [List.get?_eq_getElem?] at hj hj2
      simp [checkOkAt, checkStateAt, hj, hj2]
    · simp only [List.get?_eq_getElem?] at hj
      simp [checkOkAt, checkStateAt, hj]

/-- C3: the worker issues a request on iteration `k` only if the check it
evaluates there passes (counter total below the iteration bound, elapsed
time below the duration bound, cancellation flag unset), it stops at the
first failing check and issues nothing afterwards, and every issued
iteration records exactly its request's latency and classified outcome. -/
theorem c3_worker_stop (I D : Nat) (fr : Option (String → Bool))
    (t0 e0 : Nat) (envs : List IterEnv) :
    (workerLoop I D fr t0 e0 envs).length ≤ envs.length ∧
    (∀ k, k < (workerLoop I D fr t0 e0 envs).length →
      checkOkAt I D t0 e0 envs k = true) ∧
    (∀ k, checkOkAt I D t0 e0 envs k = false →
      (workerLoop I D fr t0 e0 envs).length ≤ k) ∧
    (∀ k, k < (workerLoop I D fr t0 e0 envs).length →
      (workerLoop I D fr t0 e0 envs).get? k
        = (envs.get? k).map fun e =>
            { latency := e.latency, outcome := classify fr e.result }) := by
  induction envs generalizing t0 e0 with
  | nil =>
    refine ⟨Nat.le_refl _, ?_, ?_, ?_⟩ <;> intro k <;> simp [workerLoop]
  | cons e rest ih =>
    by_cases hcond : t0 < I ∧ e0 < D
    · by_cases hcanc : e.cancel
      · have hloop : workerLoop I D fr t0 e0 (e :: rest) = [] := by
          simp [workerLoop, hcond.1, hcond.2, hcanc]
        refine ⟨?_, ?_, ?_, ?_⟩ <;> simp [hloop]
      · have hloop : workerLoop I D fr t0 e0 (e :: rest)
            = { latency := e.latency, outcome := classify fr e.result }
              :: workerLoop I D fr e.nextTotal e.nextElapsed rest := by
          simp [workerLoop, hcond.1, hcond.2, hcanc]
        obtain ⟨ih1, ih2, ih3, ih4⟩ := ih e.nextTotal e.nextElapsed
        refine ⟨?_, ?_, ?_, ?_⟩
        · rw [hloop]
          simpa using Nat.succ_le_succ ih1
        · intro k hk
          cases k with
          | zero =>
            simp [checkOkAt_zero, hcond.1, hcond.2, hcanc]
          | succ j =>
            rw [hloop] at hk
            simp only [List.length_cons, Nat.succ_lt_succ_iff] at hk
            rw [checkOkAt_succ]
            exact ih2 j hk
        · intro k hk
          cases k with
          | zero =>
            rw [checkOkAt_zero] at hk
            simp [hcond.1, hcond.2, hcanc] at hk
          | succ j =>
            rw [checkOkAt_succ] at hk
            rw [hloop]
            simp only [List.length_cons, Nat.succ_le_succ_iff]
            exact ih3 j hk
        · intro k hk
          cases k with
          | zero => simp [hloop]
          | succ j =>
            rw [hloop] at hk ⊢
            simp only [List.length_cons, Nat.succ_lt_succ_iff] at hk
            simp only [List.get?_cons_succ]
            exact ih4 j hk
    · have hloop : workerLoop I D fr t0 e0 (e :: rest) = [] := by
        rcases Decidable.not_and_iff_or_not.mp hcond with h | h <;>
          simp [workerLoop, h]
      have hck : checkOkAt I D t0 e0 (e :: rest) 0 = false := by
        rw [checkOkAt_zero]
        rcases Decidable.not_and_iff_or_not.mp hcond with h | h <;> simp [h]
      refine ⟨?_, ?_, ?_, ?_⟩ <;> simp [hloop]

/-- Witness for C3: on a one-observation trace whose check passes, the
single issued iteration's check indeed passed. -/
theorem c3_worker_stop_witness :
    checkOkAt 5 5 0 0
      [{ cancel := false, latency := 7,
         result := ReqResult.transportErr "connection refused",
         nextTotal := 1, nextElapsed := 1 }] 0 = true :=
  (c3_worker_stop 5 5 none 0 0
    [{ cancel := false, latency := 7,
       result := ReqResult.transportErr "connection refused",
       nextTotal := 1, nextElapsed := 1 }]).2.1 0 (by decide)

/-! Helper lemmas for the duration-parsing claim. -/

lemma unit_not_digit (u : Char) (hu : isUnitC u = true) : isDigitC u = false := by
  unfold isUnitC at hu
  simp only [Bool.or_eq_true, decide_eq_true_eq] at hu
  rcases hu with (rfl | rfl) | rfl <;> decide

lemma takeWhile_append_eq (p : Char → Bool) (a b : List Char)
    (ha : ∀ x ∈ a, p x = true) (hb : ∀ y t, b = y :: t → p y = false) :
    (a ++ b).takeWhile p = a ∧ (a ++ b).dropWhile p = b := by
  induction a with
  | nil =>
    cases b with
    | nil => simp
    | cons y t =>
      have hy := hb y t rfl
      simp [List.takeWhile_cons, List.dropWhile_cons, hy]
  | cons x xs ih =>
    have hx := ha x (List.mem_cons_self x xs)
    have ihr := ih fun z hz => ha z (List.mem_cons_of_mem x hz)
    simp [List.takeWhile_cons, List.dropWhile_cons, hx, ihr.1, ihr.2]

lemma matchAt_nil : matchAt [] = none := rfl

lemma findMatch_some_decomp :
    ∀ (s : List Char) (m : List Char × List Char × Char),
      findMatch s = some m →
      ∃ pre suffix, s = pre ++ suffix ∧ matchAt suffix = some m := by
  intro s
  induction s with
  | nil => intro m h; simp [findMatch] at h
  | cons c rest ih =>
    intro m h
    unfold findMatch at h
    rcases hma : matchAt (c :: rest) with _ | m2
    · rw [hma] at h
      obtain ⟨pre, suffix, heq, hm⟩ := ih m h
      exact ⟨c :: pre, suffix, by simp [heq], hm⟩
    · rw [hma] at h
      simp only [Option.some.injEq] at h
      exact ⟨[], c :: rest, by simp, h ▸ hma⟩

lemma findMatch_isSome_append (pre suffix : List Char)
    (h : (matchAt suffix).isSome) : (findMatch (pre ++ suffix)).isSome := by
  induction pre with
  | nil =>
    cases suffix with
    | nil => rw [matchAt_nil] at h; simp at h
    | cons c rest =>
      obtain ⟨m, hm⟩ := Option.isSome_iff_exists.mp h
      simp [findMatch, hm]
  | cons x xs ih =>
    simp only [List.cons_append]
    unfold findMatch
    rcases hma : matchAt (x :: (xs ++ suffix)) with _ | m2
    · exact ih
    · simp

lemma ne_nil_of_not_isEmpty {l : List Char} (h : ¬l.isEmpty = true) : l ≠ [] := by
  intro hnil
  subst hnil
  exact h rfl

lemma matchAt_some_decomp (cs d e : List Char) (u : Char)
    (h : matchAt cs = some (d, e, u)) :
    d ≠ [] ∧ (∀ x ∈ d, isDigitC x = true) ∧ (∀ x ∈ e, isDigitC x = true)
      ∧ isUnitC u = true
      ∧ ((e = [] ∧ ∃ post, cs = d ++ u :: post)
        ∨ (e ≠ [] ∧ ∃ post, cs = d ++ '.' :: e ++ u :: post)) := by
  by_cases h1 : (cs.takeWhile isDigitC).isEmpty
  · simp [matchAt, h1] at h
  · rcases hdrop : cs.dropWhile isDigitC with _ | ⟨u1, rest2⟩
    · simp [matchAt, h1, hdrop] at h
    · by_cases hu1 : isUnitC u1
      · simp [matchAt, h1, hdrop, hu1] at h
        obtain ⟨rfl, rfl, rfl⟩ := h
        refine ⟨ne_nil_of_not_isEmpty h1, ?_, ?_, hu1, Or.inl ⟨rfl, rest2, ?_⟩⟩
        · intro x hx
          exact List.mem_takeWhile_imp hx
        · intro x hx
          simp at hx
        · conv_lhs => rw [← List.takeWhile_append_dropWhile (p := isDigitC) (l := cs)]
          rw [hdrop]
      · by_cases hdot : u1 = '.'
        · subst hdot
          by_cases h2 : (rest2.takeWhile isDigitC).isEmpty
          · simp [matchAt, h1, hdrop, hu1, h2] at h
          · rcases hdrop2 : rest2.dropWhile isDigitC with _ | ⟨u2, rest3⟩
            · simp [matchAt, h1, hdrop, hu1, h2, hdrop2] at h
            · by_cases hu2 : isUnitC u2
              · simp [matchAt, h1, hdrop, hu1, h2, hdrop2, hu2] at h
                obtain ⟨rfl, rfl, rfl⟩ := h
                refine ⟨ne_nil_of_not_isEmpty h1, ?_, ?_, hu2,
                  Or.inr ⟨ne_nil_of_not_isEmpty h2, rest3, ?_⟩⟩
                · intro x hx
                  exact List.mem_takeWhile_imp hx
                · intro x hx
                  exact List.mem_takeWhile_imp hx
                · conv_lhs =>
                    rw [← List.takeWhile_append_dropWhile (p := isDigitC) (l := cs)]
                  rw [hdrop]
                  conv_lhs =>
                    rw [show rest2
                      = rest2.takeWhile isDigitC ++ rest2.dropWhile isDigitC
                      from (List.takeWhile_append_dropWhile ..).symm]
                  rw [hdrop2]
                  simp
              · simp [matchAt, h1, hdrop, hu1, h2, hdrop2, hu2] at h
        · simp [matchAt, h1, hdrop, hu1, hdot] at h

lemma matchAt_isSome_of_token (d mid : List Char) (u : Char) (post : List Char)
    (hd : d ≠ []) (hdd : ∀ x ∈ d, isDigitC x = true)
    (hmid : mid = [] ∨ ∃ e, mid = '.' :: e ∧ e ≠ [] ∧ ∀ x ∈ e, isDigitC x = true)
    (hu : isUnitC u = true) :
    (matchAt (d ++ mid ++ u :: post)).isSome := by
  have hud : isDigitC u = false := unit_not_digit u hu
  have hdne : d.isEmpty = false := by
    cases d with
    | nil => exact absurd rfl hd
    | cons x xs => rfl
  rcases hmid with rfl | ⟨e, rfl, he, hed⟩
  · have hsplit := takeWhile_append_eq isDigitC d (u :: post) hdd
      (by
        intro y t hyt
        obtain ⟨rfl, -⟩ : y = u ∧ t = post := by
          constructor <;> [exact (List.cons.injEq .. ▸ hyt).1.symm;
            exact (List.cons.injEq .. ▸ hyt).2.symm]
        exact hud)
    simp only [List.append_nil] at hsplit ⊢
    simp [matchAt, hsplit.1, hsplit.2, hdne, hu]
  · have hdot : isDigitC '.' = false := by decide
    have hene : e.isEmpty = false := by
      cases e with
      | nil => exact absurd rfl he
      | cons x xs => rfl
    have hsplit := takeWhile_append_eq isDigitC d ('.' :: (e ++ u :: post)) hdd
      (by
        intro y t hyt
        have hy : y = '.' := (List.cons.injEq .. ▸ hyt).1.symm
        rw [hy]
        exact hdot)
    have hsplit2 := takeWhile_append_eq isDigitC e (u :: post) hed
      (by
        intro y t hyt
        have hy : y = u := (List.cons.injEq .. ▸ hyt).1.symm
        rw [hy]
        exact hud)
    have harr : d ++ ('.' :: e) ++ u :: post = d ++ ('.' :: (e ++ u :: post)) := by
      simp
    rw [harr]
    have hdotunit : isUnitC '.' = false := by decide
    simp [matchAt, hsplit.1, hsplit.2, hdne, hdotunit, hsplit2.1, hsplit2.2,
      hene, hu]

/-- C4, counterexample: the claim demands a `DurationParseError` for every
string that is not (in its entirety) a positive decimal number followed
by a unit suffix; but the regex is unanchored, so `"1sx"` — which has
trailing text — parses successfully, and `"0s"` — whose number is not
positive — parses successfully as well. -/
theorem c4_duration_counterexample :
    specExactFormB "1sx".data = false
      ∧ parse_duration "1sx" = Except.ok ⟨1000000⟩
      ∧ specExactFormB "0s".data = false
      ∧ parse_duration "0s" = Except.ok ⟨0⟩ :=
  ⟨rfl, rfl, rfl, rfl⟩

/-- C4, amended — for ASCII inputs: for every input string consisting of
ASCII characters, `parse_duration` succeeds exactly on the strings that
CONTAIN, anywhere, a decimal digit run (optionally followed by a dot and
another digit run) immediately followed by one of the unit suffixes
s, m, h — the number may be zero and may be surrounded by arbitrary
text — and returns a `DurationParseError` exactly on the remaining
strings.  The ASCII scope is part of the amended claim, not a mere
modelling convenience: outside it the source's Unicode-aware regex
class `\d` can capture a non-ASCII digit whose numeric parse then
fails (e.g. an Arabic-Indic digit immediately before `"1s"`), so the
containment characterization is false of the program on arbitrary
Unicode input and the embedding is only exact on the ASCII fragment. -/
theorem c4_duration_errors (s : List Char)
    (hascii : ∀ c ∈ s, c.toNat < 128) :
    (∃ d2, parse_duration (String.mk s) = Except.ok d2)
      ↔ containsDurationToken s := by
  constructor
  · rintro ⟨d2, hok⟩
    unfold parse_duration at hok
    rcases hfm : findMatch (String.mk s).data with _ | ⟨d, e, u⟩
    · rw [hfm] at hok
      simp at hok
    · have hfm2 : findMatch s = some (d, e, u) := hfm
      obtain ⟨pre, suffix, rfl, hma⟩ := findMatch_some_decomp s (d, e, u) hfm2
      obtain ⟨hd, hdd, hed, hu, hcase⟩ := matchAt_some_decomp suffix d e u hma
      rcases hcase with ⟨rfl, post, rfl⟩ | ⟨he, post, rfl⟩
      · refine ⟨pre, d, [], u, post, by simp, hd, ?_, Or.inl rfl, hu⟩
        simpa [List.all_eq_true] using hdd
      · refine ⟨pre, d, '.' :: e, u, post, by simp, hd, ?_, ?_, hu⟩
        · simpa [List.all_eq_true] using hdd
        · exact Or.inr ⟨e, rfl, he, by simpa [List.all_eq_true] using hed⟩
  · rintro ⟨pre, d, mid, u, post, rfl, hd, hdall, hmid, hu⟩
    have hma : (matchAt (d ++ mid ++ u :: post)).isSome := by
      apply matchAt_isSome_of_token d mid u post hd
      · simpa [List.all_eq_true] using hdall
      · rcases hmid with rfl | ⟨e, rfl, he, hed⟩
        · exact Or.inl rfl
        · exact Or.inr ⟨e, rfl, he, by simpa [List.all_eq_true] using hed⟩
      · exact hu
    have hfs : (findMatch (pre ++ (d ++ mid ++ u :: post))).isSome :=
      findMatch_isSome_append pre _ hma
    have heq : (String.mk (pre ++ d ++ mid ++ u :: post)).data
        = pre ++ (d ++ mid ++ u :: post) := by
      simp
    obtain ⟨⟨d2, e2, u2⟩, hm⟩ := Option.isSome_iff_exists.mp hfs
    refine ⟨⟨digitsToNat (d2 ++ e2) * unitMul u2 / 10 ^ e2.length⟩, ?_⟩
    unfold parse_duration
    rw [heq, hm]

/-- Witness for C4's amended theorem: `"x1s"` contains the token `1s`,
so parsing succeeds despite the surrounding text. -/
theorem c4_duration_errors_witness :
    ∃ d2, parse_duration (String.mk "x1s".data) = Except.ok d2 :=
  (c4_duration_errors "x1s".data (by decide)).mpr
    ⟨['x'], ['1'], [], 's', [], rfl, by decide, by decide, Or.inl rfl, by decide⟩

/-! Helper lemmas for the run-level transition system. -/

lemma countW_set (l : List WStatus) (i : Nat) (a b st : WStatus)
    (h : l.get? i = some a) :
    countW st (l.set i b) + (if a = st then 1 else 0)
      = countW st l + (if b = st then 1 else 0) := by
  induction l generalizing i with
  | nil => simp at h
  | cons x t ih =>
    cases i with
    | zero =>
      have hxa : x = a := by simpa using h
      subst hxa
      simp only [List.set, countW, List.count_cons]
      by_cases hb : b = st <;> by_cases hx2 : x = st <;>
        simp +decide [hb, hx2, beq_iff_eq]
    | succ j =>
      have hj : t.get? j = some a := by simpa using h
      have := ih j hj
      simp only [List.set, countW, List.count_cons] at this ⊢
      by_cases hx : x = st <;> simp [hx, beq_iff_eq] at this ⊢ <;> omega

lemma countW_pos_of_get (l : List WStatus) (i : Nat) (a : WStatus)
    (h : l.get? i = some a) : 1 ≤ countW a l := by
  induction l generalizing i with
  | nil => simp at h
  | cons x t ih =>
    cases i with
    | zero =>
      obtain rfl : x = a := by simpa using h
      simp [countW, List.count_cons]
    | succ j =>
      have hj : t.get? j = some a := by simpa using h
      have := ih j hj
      simp only [countW, List.count_cons] at this ⊢
      split <;> omega

lemma countW_partition (l : List WStatus) :
    countW WStatus.idle l + countW WStatus.inflight l
      + countW WStatus.recorded l + countW WStatus.done l = l.length := by
  induction l with
  | nil => rfl
  | cons x t ih =>
    cases x <;> simp [countW, List.count_cons, beq_iff_eq] at ih ⊢ <;> omega

lemma countW_replicate_idle (n : Nat) (st : WStatus) (h : st ≠ WStatus.idle) :
    countW st (List.replicate n WStatus.idle) = 0 := by
  induction n with
  | zero => rfl
  | succ m ih =>
    simp only [countW] at ih
    simp [List.replicate, countW, List.count_cons, beq_iff_eq, h, ih]

/-- The run invariant: the worker count is constant, the number of issued
requests stays below `iterations + conns - 1`, and the histogram sample
count always equals `passes + errors` plus the number of workers that
recorded but have not yet bumped a counter. -/
lemma sys_inv (I D conns : Nat) (s : Sys) (h : Reachable I D conns s) :
    s.workers.length = conns
      ∧ Sys.issued s ≤ I + conns - 1
      ∧ s.samples = s.passes + s.errors + countW WStatus.recorded s.workers := by
  unfold Reachable at h
  induction h with
  | refl =>
    have h1 : countW WStatus.inflight (List.replicate conns WStatus.idle) = 0 :=
      countW_replicate_idle conns _ (by decide)
    have h2 : countW WStatus.recorded (List.replicate conns WStatus.idle) = 0 :=
      countW_replicate_idle conns _ (by decide)
    refine ⟨by simp [Sys.init], ?_, ?_⟩
    · simp [Sys.init, Sys.issued, h1, h2]
    · simp [Sys.init, h2]
  | @tail b c hsteps hstep ih =>
    obtain ⟨ihlen, ihiss, ihsam⟩ := ih
    cases hstep with
    | issue i hw hI hD hc =>
      have hin := countW_set b.workers i WStatus.idle WStatus.inflight
        WStatus.inflight hw
      have hrec := countW_set b.workers i WStatus.idle WStatus.inflight
        WStatus.recorded hw
      simp only [reduceIte, if_neg (by decide : ¬WStatus.idle = WStatus.inflight),
        if_neg (by decide : ¬WStatus.idle = WStatus.recorded),
        if_neg (by decide : ¬WStatus.inflight = WStatus.recorded),
        if_pos rfl] at hin hrec
      have hidle := countW_pos_of_get b.workers i WStatus.idle hw
      have hpart := countW_partition b.workers
      have htot : b.passes + b.errors < I := hI
      simp only [Sys.issued] at ihiss ⊢
      refine ⟨by simp [List.length_set, ihlen], ?_, ?_⟩
      · dsimp only
        omega
      · dsimp only
        omega
    | record i hw =>
      have hin := countW_set b.workers i WStatus.inflight WStatus.recorded
        WStatus.inflight hw
      have hrec := countW_set b.workers i WStatus.inflight WStatus.recorded
        WStatus.recorded hw
      simp only [reduceIte, if_neg (by decide : ¬WStatus.inflight = WStatus.recorded),
        if_neg (by decide : ¬WStatus.recorded = WStatus.inflight),
        if_pos rfl] at hin hrec
      simp only [Sys.issued] at ihiss ⊢
      refine ⟨by simp [List.length_set, ihlen], ?_, ?_⟩
      · dsimp only
        omega
      · dsimp only
        omega
    | finishPass i hw =>
      have hin := countW_set b.workers i WStatus.recorded WStatus.idle
        WStatus.inflight hw
      have hrec := countW_set b.workers i WStatus.recorded WStatus.idle
        WStatus.recorded hw
      simp only [reduceIte, if_neg (by decide : ¬WStatus.recorded = WStatus.inflight),
        if_neg (by decide : ¬WStatus.idle = WStatus.inflight),
        if_neg (by decide : ¬WStatus.idle = WStatus.recorded),
        if_pos rfl] at hin hrec
      simp only [Sys.issued] at ihiss ⊢
      refine ⟨by simp [List.length_set, ihlen], ?_, ?_⟩
      · dsimp only
        omega
      · dsimp only
        omega
    | finishErr i hw =>
      have hin := countW_set b.workers i WStatus.recorded WStatus.idle
        WStatus.inflight hw
      have hrec := countW_set b.workers i WStatus.recorded WStatus.idle
        WStatus.recorded hw
      simp only [reduceIte, if_neg (by decide : ¬WStatus.recorded = WStatus.inflight),
        if_neg (by decide : ¬WStatus.idle = WStatus.inflight),
        if_neg (by decide : ¬WStatus.idle = WStatus.recorded),
        if_pos rfl] at hin hrec
      simp only [Sys.issued] at ihiss ⊢
      refine ⟨by simp [List.length_set, ihlen], ?_, ?_⟩
      · dsimp only
        omega
      · dsimp only
        omega
    | halt i hw hstop =>
      have hin := countW_set b.workers i WStatus.idle WStatus.done
        WStatus.inflight hw
      have hrec := countW_set b.workers i WStatus.idle WStatus.done
        WStatus.recorded hw
      simp only [reduceIte, if_neg (by decide : ¬WStatus.idle = WStatus.inflight),
        if_neg (by decide : ¬WStatus.idle = WStatus.recorded),
        if_neg (by decide : ¬WStatus.done = WStatus.inflight),
        if_neg (by decide : ¬WStatus.done = WStatus.recorded)] at hin hrec
      simp only [Sys.issued] at ihiss ⊢
      refine ⟨by simp [List.length_set, ihlen], ?_, ?_⟩
      · dsimp only
        omega
      · dsimp only
        omega
    | tick d =>
      exact ⟨ihlen, ihiss, ihsam⟩
    | interrupt =>
      exact ⟨ihlen, ihiss, ihsam⟩

/-- C8: in every reachable state of a run with a finite iteration bound
and `conns` workers, the total number of requests issued never exceeds
the iteration bound plus `conns - 1` (each worker can pass the shared
check once while the counters lag, and no more). -/
theorem c8_overshoot_bound (I D conns : Nat) (s : Sys)
    (hconns : 1 ≤ conns) (h : Reachable I D conns s) :
    Sys.issued s ≤ I + (conns - 1) := by
  have hb := (sys_inv I D conns s h).2.1
  omega

/-- Witness for C8: the initial state of a three-worker run with
iteration bound 2 has issued 0 ≤ 2 + 2 requests. -/
theorem c8_overshoot_bound_witness : Sys.issued (Sys.init 3) ≤ 2 + (3 - 1) :=
  c8_overshoot_bound 2 5 3 (Sys.init 3) (by omega) Relation.ReflTransGen.refl

/-- C9: in every reachable state the histogram sample count equals
`passes + errors` plus the number of workers between their record and
their counter bump; once every worker has finished (joined), the sample
count equals `passes + errors` exactly. -/
theorem c9_samples_match_counters (I D conns : Nat) (s : Sys)
    (h : Reachable I D conns s) :
    s.samples = s.passes + s.errors + countW WStatus.recorded s.workers ∧
    ((∀ w ∈ s.workers, w = WStatus.done) → s.samples = s.passes + s.errors) := by
  have hinv := (sys_inv I D conns s h).2.2
  refine ⟨hinv, ?_⟩
  intro hdone
  have hz : countW WStatus.recorded s.workers = 0 := by
    rw [countW, List.count_eq_zero]
    intro hmem
    exact absurd (hdone _ hmem) (by decide)
  omega

/-- Witness for C9: a complete one-worker run — issue, record, pass,
halt — ends with one sample and `passes + errors = 1`. -/
theorem c9_samples_match_counters_witness :
    (⟨[WStatus.done], 1, 0, 1, 0, false⟩ : Sys).samples
      = (⟨[WStatus.done], 1, 0, 1, 0, false⟩ : Sys).passes
        + (⟨[WStatus.done], 1, 0, 1, 0, false⟩ : Sys).errors := by
  have hreach : Reachable 1 1 1 (⟨[WStatus.done], 1, 0, 1, 0, false⟩ : Sys) :=
    Relation.ReflTransGen.tail
      (Relation.ReflTransGen.tail
        (Relation.ReflTransGen.tail
          (Relation.ReflTransGen.tail Relation.ReflTransGen.refl
            (Step.issue (Sys.init 1) 0 (by decide) (by decide) (by decide) rfl))
          (Step.record (⟨[WStatus.inflight], 0, 0, 0, 0, false⟩ : Sys) 0
            (by decide)))
        (Step.finishPass (⟨[WStatus.recorded], 0, 0, 1, 0, false⟩ : Sys) 0
          (by decide)))
      (Step.halt (⟨[WStatus.idle], 1, 0, 1, 0, false⟩ : Sys) 0 (by decide)
        (by decide))
  exact (c9_samples_match_counters 1 1 1 _ hreach).2 (by decide)
